import Mathlib

/-!
Verification of the PhotoCurator scheduling core against its specification.

This file shallowly embeds the Python sources of the repository:

* `src/core/scheduler.py` (`Task`, `PriorityScheduler`) in namespace `Sched`;
* `src/core/event_log.py` (`EventLog.append`) in namespace `EvLog`;
* `src/data/database.py` and `src/ui/controller.py` (the image lifecycle
  registry and the controller calls that mutate it) in namespace `Reg`;
* `src/core/strategy.py` (`AggressiveStrategy.get_priority_boost`) in
  namespace `Strat`;
* `src/core/engine.py` / `src/core/operators.py` (`InferenceEngine.infer`)
  in namespace `Eng`.

Modelling conventions:

* Python floats (wall-clock times, priorities, boosts, the decay factor)
  are modelled as rationals `ℚ`; every operation that reads the wall clock
  in the source takes the clock value as an explicit `now : ℚ` argument.
  The few adjacent `time.time()` calls inside one locked scheduler
  operation are collapsed to a single instant.
* Python dicts (`task_map`, the registry's `records`) are association
  lists in insertion order, exactly the iteration order Python guarantees;
  `heapq` is modelled as the list of pushed entries together with a
  minimum-extraction function `popMin`, which is the observable contract
  of a binary heap.
* The numeric inference pipeline is over `ℝ` (it uses a square root);
  everything the claims inspect about it is length/error structure.
-/

namespace Sched

/-- Task from `scheduler.py`: image id, mutable priority (starts at 0) and
the creation timestamp taken from the wall clock. -/
structure Task where
  image_id : String
  priority : ℚ
  timestamp : ℚ
deriving DecidableEq, Repr

/-- `Task.score`: `-(priority + age * 0.1)` with `age = now - timestamp`. -/
def Task.score (t : Task) (now : ℚ) : ℚ :=
  -(t.priority + (now - t.timestamp) * (1/10))

/-- A heap entry `(score, counter, task)` exactly as pushed by
`add_task` / `_rebuild_heap`. -/
abbrev Entry := ℚ × ℕ × Task

/-- The membership map `task_map : image_id -> Task`, in insertion order. -/
abbrev TMap := List (String × Task)

/-- The key set of the membership map (in insertion order). -/
def keys (m : TMap) : List String := m.map Prod.fst

/-- Python dict lookup `task_map[id]`. -/
def lookupId (id : String) : TMap → Option Task
  | [] => none
  | (k, t) :: rest => if k = id then some t else lookupId id rest

/-- Python dict removal `task_map.pop(id)` (a dict holds each key once, so
removing the first occurrence is exact). -/
def eraseKey (id : String) : TMap → TMap
  | [] => []
  | (k, t) :: rest => if k = id then rest else (k, t) :: eraseKey id rest

/-- In-place mutation `task_map[id].priority += d` (no-op when absent). -/
def updPriority (id : String) (d : ℚ) (m : TMap) : TMap :=
  m.map fun p => if p.1 = id then (p.1, { p.2 with priority := p.2.priority + d }) else p

/-- `PriorityScheduler` state: the three tunables, the membership map, the
heap contents and the `itertools.count()` sequence counter.  The `engine`
handle is carried only for the worker and never touched by the scheduling
logic, so it is omitted. -/
structure State where
  viewport_boost : ℚ
  intent_boost : ℚ
  decay_factor : ℚ
  task_map : TMap
  heap : List Entry
  counter : ℕ
deriving DecidableEq, Repr

/-- `PriorityScheduler.__init__` (defaults `10`, `100`, `0.95`). -/
def initScheduler (vb ib df : ℚ) : State :=
  ⟨vb, ib, df, [], [], 0⟩

/-- `add_task`: ignore an already-queued id, otherwise create a priority-0
task and push `(task.score(), next(counter), task)`. -/
def addTask (now : ℚ) (id : String) (s : State) : State :=
  if id ∈ keys s.task_map then s
  else
    let t : Task := ⟨id, 0, now⟩
    { s with
        task_map := s.task_map ++ [(id, t)]
        heap := s.heap ++ [(t.score now, s.counter, t)]
        counter := s.counter + 1 }

/-- `_rebuild_heap`: clear the heap and re-push every task of the map, in
map (= insertion) order, with fresh consecutive counters. -/
def rebuildAux (now : ℚ) : ℕ → TMap → List Entry
  | _, [] => []
  | base, (_, t) :: rest => (t.score now, base, t) :: rebuildAux now (base + 1) rest

/-- The state change performed by `_rebuild_heap`. -/
def rebuildHeap (now : ℚ) (s : State) : State :=
  { s with
      heap := rebuildAux now s.counter s.task_map
      counter := s.counter + s.task_map.length }

/-- `bump_to_front_batch`: add `viewport_boost` to every listed id that is
still outstanding, then rebuild the heap once. -/
def bumpToFrontBatch (now : ℚ) (ids : List String) (s : State) : State :=
  rebuildHeap now
    { s with task_map := ids.foldl (fun m i => updPriority i s.viewport_boost m) s.task_map }

/-- `promote`: add `intent_boost` to one outstanding id and rebuild (the
rebuild happens inside the membership test, so an absent id is a no-op). -/
def promote (now : ℚ) (id : String) (s : State) : State :=
  if id ∈ keys s.task_map then
    rebuildHeap now { s with task_map := updPriority id s.intent_boost s.task_map }
  else s

/-- `decay`: multiply every outstanding priority by `decay_factor`, then
rebuild the heap. -/
def decay (now : ℚ) (s : State) : State :=
  rebuildHeap now
    { s with task_map := s.task_map.map fun p => (p.1, { p.2 with priority := p.2.priority * s.decay_factor }) }

/-- `set_viewport_boost`. -/
def setViewportBoost (v : ℚ) (s : State) : State := { s with viewport_boost := v }

/-- `set_intent_boost`. -/
def setIntentBoost (v : ℚ) (s : State) : State := { s with intent_boost := v }

/-- `set_decay_factor`. -/
def setDecayFactor (v : ℚ) (s : State) : State := { s with decay_factor := v }

/-- The lexicographic order `heapq` uses on `(score, counter, task)`
tuples; the task component is never reached because counters are unique. -/
def entryLE (a b : Entry) : Prop :=
  a.1 < b.1 ∨ (a.1 = b.1 ∧ a.2.1 ≤ b.2.1)

instance (a b : Entry) : Decidable (entryLE a b) := by
  unfold entryLE; infer_instance

/-- `heapq.heappop`: extract the minimum entry, returning it and the
remaining entries.  (The binary-heap array layout is irrelevant to the
observable pop order, which is minimum extraction from the multiset.) -/
def popMin : List Entry → Option (Entry × List Entry)
  | [] => none
  | e :: es =>
    match popMin es with
    | none => some (e, [])
    | some (m, rest) => if entryLE e m then some (e, es) else some (m, e :: rest)

/-- The pop-skip-stale loop shared by `get_next_task` and
`get_next_batch`: pop entries, discard those whose id is no longer in the
membership map, and on the first live one remove its id from the map.  The
fuel argument is the initial heap length, which bounds the loop. -/
def popLiveAux : ℕ → List Entry → TMap → Option (Task × List Entry × TMap)
  | 0, _, _ => none
  | fuel + 1, h, m =>
    match popMin h with
    | none => none
    | some (e, rest) =>
      if e.2.2.image_id ∈ keys m then some (e.2.2, rest, eraseKey e.2.2.image_id m)
      else popLiveAux fuel rest m

/-- The skip-stale pop loop, with enough fuel for the whole heap. -/
def popLive (h : List Entry) (m : TMap) : Option (Task × List Entry × TMap) :=
  popLiveAux h.length h m

/-- `get_next_task`: returns the first live popped task (removing it from
the membership map), or `none` with the heap exhausted. -/
def getNextTask (s : State) : Option Task × State :=
  match popLive s.heap s.task_map with
  | none => (none, { s with heap := [] })
  | some (t, h, m) => (some t, { s with heap := h, task_map := m })

/-- The `get_next_batch` loop body: up to `n` live pops. -/
def goBatch : ℕ → List Entry → TMap → List Task × List Entry × TMap
  | 0, h, m => ([], h, m)
  | n + 1, h, m =>
    match popLive h m with
    | none => ([], [], m)
    | some (t, h1, m1) =>
      let r := goBatch n h1 m1
      (t :: r.1, r.2)

/-- `get_next_batch(max_items)`. -/
def getNextBatch (n : ℕ) (s : State) : List Task × State :=
  let r := goBatch n s.heap s.task_map
  (r.1, { s with heap := r.2.1, task_map := r.2.2 })

/-- States reachable through the scheduler's public operations. -/
inductive Reachable : State → Prop
  | init (vb ib df : ℚ) : Reachable (initScheduler vb ib df)
  | addStep (now : ℚ) (id : String) {s : State} :
      Reachable s → Reachable (addTask now id s)
  | bumpStep (now : ℚ) (ids : List String) {s : State} :
      Reachable s → Reachable (bumpToFrontBatch now ids s)
  | promoteStep (now : ℚ) (id : String) {s : State} :
      Reachable s → Reachable (promote now id s)
  | decayStep (now : ℚ) {s : State} :
      Reachable s → Reachable (decay now s)
  | setVBStep (v : ℚ) {s : State} :
      Reachable s → Reachable (setViewportBoost v s)
  | setIBStep (v : ℚ) {s : State} :
      Reachable s → Reachable (setIntentBoost v s)
  | setDFStep (v : ℚ) {s : State} :
      Reachable s → Reachable (setDecayFactor v s)
  | nextStep {s : State} :
      Reachable s → Reachable (getNextTask s).2
  | batchStep (n : ℕ) {s : State} :
      Reachable s → Reachable (getNextBatch n s).2

end Sched

namespace EvLog

/-- The fixed event vocabulary of `event_log.py`. -/
inductive EventType
  | CREATED | ENQUEUED | DEQUEUED | INFER_START | INFER_END
  | WRITE_BACK | VISIBLE_ENTER | VISIBLE_LEAVE | USER_MARK | STRATEGY_CHANGED
deriving DecidableEq, Repr

/-- An immutable event; the free-form `context` dict is modelled as a
string-keyed association list (its contents are never inspected by the
log's ordering logic). -/
structure Event where
  event_type : EventType
  image_id : String
  timestamp : ℚ
  context : List (String × String)
deriving DecidableEq, Repr

/-- The timestamp `EventLog.append` assigns: the wall-clock reading, but
nudged to `last + 0.0001` whenever the clock ties with or runs behind the
last recorded event. -/
def nextTimestamp (clock : ℚ) (events : List Event) : ℚ :=
  match events.getLast? with
  | none => clock
  | some last => if clock ≤ last.timestamp then last.timestamp + 1/10000 else clock

/-- `EventLog.append`: record the event at the end of the log. -/
def append (clock : ℚ) (et : EventType) (id : String)
    (ctx : List (String × String)) (events : List Event) : List Event :=
  events ++ [⟨et, id, nextTimestamp clock events, ctx⟩]

/-- The log's timestamps are strictly increasing. -/
def logSorted (events : List Event) : Prop :=
  (events.map Event.timestamp).Chain' (· < ·)

/-- Run a whole sequence of `append` calls (each with its own clock
reading) against a starting log. -/
def runAppends (calls : List (ℚ × EventType × String × List (String × String)))
    (events : List Event) : List Event :=
  calls.foldl (fun l c => append c.1 c.2.1 c.2.2.1 c.2.2.2 l) events

end EvLog

namespace Reg

/-- `ImageRecord` from `database.py` (the opaque `selection_context` dict,
which no claim touches, is omitted). -/
structure ImageRecord where
  path : String
  state : String
  embedding : Option (List ℚ)
  created_at : ℚ
  enqueued_at : Option ℚ
  dequeued_at : Option ℚ
  infer_start_at : Option ℚ
  infer_end_at : Option ℚ
  write_back_at : Option ℚ
  is_marked : Bool
  marked_at : Option ℚ
  currently_visible : Bool
  last_visible_enter_time : Option ℚ
  visible_times : List (ℚ × ℚ)
deriving DecidableEq, Repr

/-- `ImageRecord.__init__`: fresh record in state `"PENDING"`. -/
def ImageRecord.new (path : String) (now : ℚ) : ImageRecord :=
  ⟨path, "PENDING", none, now, none, none, none, none, none, false, none, false, none, []⟩

/-- `ImageRecord.set_state`: stores the requested state, with no guard. -/
def ImageRecord.set_state (r : ImageRecord) (st : String) : ImageRecord :=
  { r with state := st }

/-- `ImageRecord.set_embedding`: store the result, force state `"DONE"`,
stamp `infer_end_at` if missing and always stamp `write_back_at`. -/
def ImageRecord.set_embedding (r : ImageRecord) (emb : List ℚ) (now : ℚ) : ImageRecord :=
  { r with
      embedding := some emb
      state := "DONE"
      infer_end_at := if r.infer_end_at = none then some now else r.infer_end_at
      write_back_at := some now }

/-- The registry `ImageDatabase.records : path -> ImageRecord`. -/
abbrev ImageDatabase := List (String × ImageRecord)

/-- Registry record lookup. -/
def lookupRec (path : String) : ImageDatabase → Option ImageRecord
  | [] => none
  | (k, r) :: rest => if k = path then some r else lookupRec path rest

/-- `ImageDatabase.add`: create the record on first submission only. -/
def dbAdd (now : ℚ) (path : String) (db : ImageDatabase) : ImageDatabase :=
  if path ∈ db.map Prod.fst then db else db ++ [(path, ImageRecord.new path now)]

/-- `ImageDatabase.set_state`: delegate to the record when present. -/
def dbSetState (path st : String) (db : ImageDatabase) : ImageDatabase :=
  db.map fun p => if p.1 = path then (p.1, p.2.set_state st) else p

/-- `ImageDatabase.set_embedding`: delegate to the record when present. -/
def dbSetEmbedding (path : String) (emb : List ℚ) (now : ℚ) (db : ImageDatabase) : ImageDatabase :=
  db.map fun p => if p.1 = path then (p.1, p.2.set_embedding emb now) else p

/-- `UIController.on_task_started`'s registry effect:
`db.set_state(image_id, "RUNNING")`. -/
def on_task_started (id : String) (db : ImageDatabase) : ImageDatabase :=
  dbSetState id "RUNNING" db

/-- `UIController.on_task_finished`'s registry effect:
`db.set_embedding(image_id, embedding)`. -/
def on_task_finished (id : String) (emb : List ℚ) (now : ℚ) (db : ImageDatabase) : ImageDatabase :=
  dbSetEmbedding id emb now db

end Reg

namespace Strat

/-- The context dict passed to `Strategy.get_priority_boost`; each field is
optional because the Python code reads it with `context.get(key, default)`. -/
structure Ctx where
  viewport_boost : Option ℚ
  intent_boost : Option ℚ
  is_visible : Option Bool
  is_marked : Option Bool
  queue_age : Option ℚ
deriving DecidableEq, Repr

/-- `AggressiveStrategy.get_priority_boost`: marked adds `intent_boost`
(default 100), visible adds `viewport_boost` (default 30), plus
`queue_age * 0.05`.  A strategy is a pure function: the method reads only
its context argument and mutates no scheduler or registry state. -/
def aggressiveBoost (image_id : String) (ctx : Ctx) : ℚ :=
  (if ctx.is_marked.getD false then ctx.intent_boost.getD 100 else 0)
    + (if ctx.is_visible.getD false then ctx.viewport_boost.getD 30 else 0)
    + ctx.queue_age.getD 0 * (1/20)

end Strat

namespace Eng

/-- Vector addition (numpy broadcasting is not exercised: the engine adds
equal-length vectors). -/
def vadd (a b : List ℝ) : List ℝ := List.zipWith (· + ·) a b

/-- Scalar multiple of a vector. -/
def smul (c : ℝ) (v : List ℝ) : List ℝ := v.map (c * ·)

/-- `operators.linear`: `x @ w + b` with `w` given row-wise (row `i` is the
image of input coordinate `i`). -/
def linear (x : List ℝ) (w : List (List ℝ)) (b : List ℝ) : List ℝ :=
  vadd ((x.zip w).foldl (fun acc p => vadd acc (smul p.1 p.2)) (List.replicate b.length 0)) b

/-- `operators.relu`. -/
def relu (v : List ℝ) : List ℝ := v.map (fun a => max 0 a)

/-- `operators.l2_normalize` with its `eps = 1e-8` guard. -/
noncomputable def l2_normalize (v : List ℝ) (eps : ℝ) : List ℝ :=
  v.map fun a => a / (Real.sqrt ((v.map fun b => b ^ 2).sum) + eps)

/-- The four weight arrays held by `InferenceEngine`. -/
structure Weights where
  w1 : List (List ℝ)
  b1 : List ℝ
  w2 : List (List ℝ)
  b2 : List ℝ

/-- `InferenceEngine.infer` on an (already flattened) input vector: raise
`ValueError` when the input length differs from `w1.shape[0]`, otherwise
linear → relu → linear → l2-normalize. -/
noncomputable def infer (W : Weights) (x : List ℝ) : Except String (List ℝ) :=
  if x.length ≠ W.w1.length then
    .error "Input vector size doesn't match model expected"
  else
    .ok (l2_normalize (linear (relu (linear x W.w1 W.b1)) W.w2 W.b2) (1/100000000))

/-- Whether an `infer` call returned a result (vs. raising). -/
def isOkE : Except String (List ℝ) → Bool
  | .ok _ => true
  | .error _ => false

end Eng

namespace Sched

/-- Apply `decay` once per clock reading in `nows` (k successive periodic
ticks, with no other priority mutation in between). -/
def decayIter (nows : List ℚ) (s : State) : State :=
  nows.foldl (fun st n => decay n st) s

/-- Well-formedness of a heap/map/counter triple.  These facts hold in
every reachable scheduler state: heap entries carry strictly increasing
counters (in push order), all below the counter source; the entries' ids
read off in counter order are exactly the map's keys in insertion order;
the map is a dict (no duplicate keys) whose values carry their own key. -/
structure InvHM (h : List Entry) (m : TMap) (c : ℕ) : Prop where
  sortedCnt : h.Pairwise fun a b => a.2.1 < b.2.1
  cntBound : ∀ e ∈ h, e.2.1 < c
  idsEq : h.map (fun e => e.2.2.image_id) = keys m
  nodupKeys : (keys m).Nodup
  keyMatch : ∀ p ∈ m, p.2.image_id = p.1

/-- The scheduler-state invariant. -/
def Inv (s : State) : Prop := InvHM s.heap s.task_map s.counter

/-- `a` was submitted (inserted) strictly before `b`: `a` occurs before
`b` in the membership map's key list. -/
def keysBefore (a b : String) (l : List String) : Prop :=
  ∃ p q r, l = p ++ a :: (q ++ b :: r)

end Sched

open Sched EvLog Reg Strat Eng

section ListLemmas

theorem keys_append (m1 m2 : TMap) : keys (m1 ++ m2) = keys m1 ++ keys m2 := by
  simp [keys]

theorem keys_map_snd (m : TMap) (f : String → Task → Task) :
    keys (m.map fun p => (p.1, f p.1 p.2)) = keys m := by
  simp [keys, List.map_map]

theorem keys_updPriority (id : String) (d : ℚ) (m : TMap) :
    keys (updPriority id d m) = keys m := by
  unfold updPriority keys
  rw [List.map_map]
  apply List.map_congr_left
  intro p _
  by_cases h : p.1 = id <;> simp [h]

theorem keys_foldl_updPriority (ids : List String) (d : ℚ) (m : TMap) :
    keys (ids.foldl (fun m i => updPriority i d m) m) = keys m := by
  induction ids generalizing m with
  | nil => rfl
  | cons i rest ih => rw [List.foldl_cons, ih, keys_updPriority]

theorem lookupId_map_snd (id : String) (m : TMap) (f : Task → Task) :
    lookupId id (m.map fun p => (p.1, f p.2)) = (lookupId id m).map f := by
  induction m with
  | nil => rfl
  | cons p rest ih =>
    by_cases h : p.1 = id <;> simp [lookupId, h, ih]

end ListLemmas

theorem addTask_mem (now : ℚ) (id : String) (s : State) (h : id ∈ keys s.task_map) :
    addTask now id s = s := by
  simp [addTask, h]

/-- Claim C1: `submit` (= `add_task`) is idempotent.  If the id is already
outstanding the call changes nothing at all; otherwise it appends exactly
one priority-0 task to the membership map and exactly one entry for it to
the heap (advancing the sequence counter); and two submissions before any
dequeue leave exactly one outstanding task for the id. -/
theorem submit_idempotent_one_outstanding (s : State) (now now2 : ℚ) (id : String)
    (hnd : (keys s.task_map).Nodup) :
    (id ∈ keys s.task_map → addTask now id s = s) ∧
    (id ∉ keys s.task_map →
      (addTask now id s).task_map = s.task_map ++ [(id, ⟨id, 0, now⟩)] ∧
      (addTask now id s).heap =
        s.heap ++ [((Task.mk id 0 now).score now, s.counter, ⟨id, 0, now⟩)] ∧
      (addTask now id s).counter = s.counter + 1) ∧
    (keys (addTask now2 id (addTask now id s)).task_map).count id = 1 := by
  refine ⟨fun h => by simp [addTask, h], fun h => by simp [addTask, h], ?_⟩
  by_cases h : id ∈ keys s.task_map
  · rw [addTask_mem now id s h, addTask_mem now2 id s h]
    exact List.count_eq_one_of_mem hnd h
  · have h1 : (addTask now id s).task_map = s.task_map ++ [(id, ⟨id, 0, now⟩)] := by
      simp [addTask, h]
    have hmem : id ∈ keys (addTask now id s).task_map := by
      rw [h1, keys_append]
      simp [keys]
    rw [addTask_mem now2 id _ hmem, h1, keys_append]
    rw [List.count_append]
    rw [List.count_eq_zero.mpr h]
    simp [keys]

/-- Claim C1 witness: submitting `"A"` twice to a fresh scheduler leaves
exactly one outstanding task for `"A"`. -/
theorem submit_idempotent_witness :
    (keys (addTask 1 "A" (addTask 0 "A" (initScheduler 10 100 (19/20)))).task_map).count "A" = 1 :=
  (submit_idempotent_one_outstanding (initScheduler 10 100 (19/20)) 0 1 "A" (by decide)).2.2

/-- Claim C10: priority mutations never change membership.  `bump_to_front_batch`,
`promote`, `decay` and the three configuration setters leave the membership
map's key list (hence the set of outstanding ids) exactly unchanged. -/
theorem mutations_preserve_membership (s : State) (now : ℚ) (ids : List String)
    (id : String) (v : ℚ) :
    keys (bumpToFrontBatch now ids s).task_map = keys s.task_map ∧
    keys (promote now id s).task_map = keys s.task_map ∧
    keys (decay now s).task_map = keys s.task_map ∧
    keys (setViewportBoost v s).task_map = keys s.task_map ∧
    keys (setIntentBoost v s).task_map = keys s.task_map ∧
    keys (setDecayFactor v s).task_map = keys s.task_map := by
  refine ⟨?_, ?_, ?_, rfl, rfl, rfl⟩
  · simp only [bumpToFrontBatch, rebuildHeap]
    exact keys_foldl_updPriority ids s.viewport_boost s.task_map
  · by_cases h : id ∈ keys s.task_map <;>
      simp [promote, rebuildHeap, h, keys_updPriority]
  · simp only [decay, rebuildHeap]
    exact keys_map_snd s.task_map fun _ t => { t with priority := t.priority * s.decay_factor }

/-- Claim C7: decay is exactly multiplicative.  After `k` decay ticks (and
no other priority mutation), a task that was outstanding with priority `p`
is still stored under its id with priority `p * f^k`, `f` the decay factor,
and with every other field (id, creation timestamp) unchanged. -/
theorem decay_multiplicative (s : State) (nows : List ℚ) (id : String) (t : Task)
    (h : lookupId id s.task_map = some t) :
    lookupId id (decayIter nows s).task_map =
      some { t with priority := t.priority * s.decay_factor ^ nows.length } := by
  induction nows generalizing s t with
  | nil =>
    obtain ⟨i, p, ts⟩ := t
    simpa [decayIter] using h
  | cons n rest ih =>
    have hstep : lookupId id (decay n s).task_map =
        some { t with priority := t.priority * s.decay_factor } := by
      have h2 := lookupId_map_snd id s.task_map
        (fun t => { t with priority := t.priority * s.decay_factor })
      rw [h] at h2
      simpa [decay, rebuildHeap] using h2
    have hdf : (decay n s).decay_factor = s.decay_factor := rfl
    have := ih (decay n s) { t with priority := t.priority * s.decay_factor } hstep
    rw [hdf] at this
    simpa [decayIter, pow_succ, mul_assoc, mul_comm, mul_left_comm] using this

/-- Claim C7 witness: a task promoted to priority `0 + 100` then hit by two
decay ticks is stored with priority `(0 + 100) * (19/20)^2` and unchanged
id and timestamp. -/
theorem decay_multiplicative_witness :
    lookupId "A" (decayIter [1, 2] (promote 0 "A" (addTask 0 "A" (initScheduler 10 100 (19/20))))).task_map =
      some ⟨"A", (0 + 100) * (19/20 : ℚ) ^ 2, 0⟩ :=
  decay_multiplicative (promote 0 "A" (addTask 0 "A" (initScheduler 10 100 (19/20))))
    [1, 2] "A" ⟨"A", 0 + 100, 0⟩ rfl

/-- Claim C8: the Aggressive strategy computes exactly the reference
formula on any context that carries all five keys:
`(isMarked ? intentBoost : 0) + (isVisible ? viewportBoost : 0) + queueAge * 0.05`.
The strategy is a pure function of the context (it is modelled as such
because the Python method only reads its argument). -/
theorem aggressive_boost_formula (id : String) (marked visible : Bool)
    (ib vb qa : ℚ) :
    aggressiveBoost id ⟨some vb, some ib, some visible, some marked, some qa⟩ =
      (if marked then ib else 0) + (if visible then vb else 0) + qa * (1/20) := rfl

/-- Claim C9: `infer` returns a result exactly when the input vector's
length matches the model's expected input size (the number of rows of the
first weight matrix); otherwise it fails with the dimension-mismatch
error. -/
theorem infer_dimension_check (W : Weights) (x : List ℝ) :
    (isOkE (infer W x) = true ↔ x.length = W.w1.length) ∧
    (isOkE (infer W x) = false ↔
      infer W x = .error "Input vector size doesn't match model expected") := by
  by_cases h : x.length = W.w1.length <;> simp [infer, isOkE, h]

/-- Claim C3: the event log's timestamps are strictly increasing.  On any
strictly sorted log, whatever the wall clock returns, the timestamp that
`append` assigns is strictly greater than the last entry's timestamp (a
tie or regression is nudged to `last + 0.0001`), and the appended log is
strictly sorted again — hence any sequence of appends from the empty log
is totally ordered by timestamp. -/
theorem append_strictly_increasing (events : List Event) (clock : ℚ)
    (et : EventType) (id : String) (ctx : List (String × String))
    (hs : logSorted events) :
    (∀ last, events.getLast? = some last → last.timestamp < nextTimestamp clock events) ∧
    logSorted (append clock et id ctx events) := by
  have hstep : ∀ last, events.getLast? = some last →
      last.timestamp < nextTimestamp clock events := by
    intro last hlast
    unfold nextTimestamp
    rw [hlast]
    by_cases hc : clock ≤ last.timestamp
    · simp only [if_pos hc]
      linarith
    · simp only [if_neg hc]
      linarith [lt_of_not_le hc]
  refine ⟨hstep, ?_⟩
  unfold logSorted append
  rw [List.map_append, List.chain'_append]
  refine ⟨hs, by simp, ?_⟩
  intro x hx y hy
  simp only [List.map_cons, List.map_nil, List.head?_cons, Option.mem_def,
    Option.some.injEq] at hy
  subst hy
  rw [List.getLast?_map] at hx
  simp only [Option.mem_def, Option.map_eq_some'] at hx
  obtain ⟨last, hlast, rfl⟩ := hx
  exact hstep last hlast

/-- Claim C3 witness: on a log whose last timestamp is `5`, a stale clock
reading of `3` still yields a strictly larger fresh timestamp. -/
theorem append_strictly_increasing_witness :
    (5 : ℚ) < nextTimestamp 3 [⟨.CREATED, "x", 5, []⟩] :=
  (append_strictly_increasing [⟨.CREATED, "x", 5, []⟩] 3 .ENQUEUED "x" []
      (by simp [logSorted])).1 ⟨.CREATED, "x", 5, []⟩ rfl

/-- Claim C4 counterexample: the registry does not enforce the forward-only
state machine.  Submit `"p"`, let the worker finish it (its record is in
state `"DONE"`), then let `on_task_started` fire for it again (exactly what
happens when a finished image is re-submitted and dequeued): the record
leaves `"DONE"` and is back in the earlier state `"RUNNING"`. -/
theorem state_machine_counterexample :
    (lookupRec "p" (on_task_finished "p" [] 1 (dbAdd 0 "p" []))).map
        ImageRecord.state = some "DONE" ∧
    (lookupRec "p" (on_task_started "p"
        (on_task_finished "p" [] 1 (dbAdd 0 "p" [])))).map
        ImageRecord.state = some "RUNNING" :=
  ⟨rfl, rfl⟩

/-- Claim C4 (amended): `set_state` stores the requested state
unconditionally — the registry has no forward-only guard, so a sequence of
registry operations can return a record to an earlier state.  What does
hold: a fresh record starts in `"PENDING"`, `set_embedding` always lands
in `"DONE"`, and `set_state` changes exactly the state field. -/
theorem state_machine_amended (r : ImageRecord) (st p : String) (emb : List ℚ)
    (now : ℚ) :
    (r.set_state st).state = st ∧
    r.set_state st = { r with state := st } ∧
    (r.set_embedding emb now).state = "DONE" ∧
    (ImageRecord.new p now).state = "PENDING" :=
  ⟨rfl, rfl, rfl, rfl⟩

section HeapLemmas

theorem entryLE_refl (a : Entry) : entryLE a a := Or.inr ⟨rfl, le_refl _⟩

theorem entryLE_trans {a b c : Entry} (h1 : entryLE a b) (h2 : entryLE b c) :
    entryLE a c := by
  rcases h1 with h1 | ⟨h1e, h1c⟩ <;> rcases h2 with h2 | ⟨h2e, h2c⟩
  · exact Or.inl (lt_trans h1 h2)
  · exact Or.inl (h2e ▸ h1)
  · exact Or.inl (h1e ▸ h2)
  · exact Or.inr ⟨h1e.trans h2e, h1c.trans h2c⟩

theorem entryLE_total (a b : Entry) : entryLE a b ∨ entryLE b a := by
  rcases lt_trichotomy a.1 b.1 with h | h | h
  · exact Or.inl (Or.inl h)
  · rcases Nat.le_total a.2.1 b.2.1 with hc | hc
    · exact Or.inl (Or.inr ⟨h, hc⟩)
    · exact Or.inr (Or.inr ⟨h.symm, hc⟩)
  · exact Or.inr (Or.inl h)

theorem popMin_eq_none {l : List Entry} (h : popMin l = none) : l = [] := by
  cases l with
  | nil => rfl
  | cons e es =>
    simp only [popMin] at h
    cases hes : popMin es with
    | none => rw [hes] at h; exact absurd h (by simp)
    | some p =>
      rw [hes] at h
      by_cases hle : entryLE e p.1 <;> simp [hle] at h

theorem popMin_decomp {l : List Entry} {m : Entry} {rest : List Entry}
    (h : popMin l = some (m, rest)) :
    ∃ l1 l2, l = l1 ++ m :: l2 ∧ rest = l1 ++ l2 := by
  induction l generalizing m rest with
  | nil => simp [popMin] at h
  | cons e es ih =>
    simp only [popMin] at h
    cases hes : popMin es with
    | none =>
      rw [hes] at h
      have hnil : es = [] := popMin_eq_none hes
      simp only [Option.some.injEq, Prod.mk.injEq] at h
      exact ⟨[], [], by simp [hnil, h.1], by simp [h.2]⟩
    | some p =>
      obtain ⟨m', rest'⟩ := p
      simp only [hes] at h
      by_cases hle : entryLE e m'
      · rw [if_pos hle] at h
        simp only [Option.some.injEq, Prod.mk.injEq] at h
        exact ⟨[], es, by simp [h.1], by simp [h.2]⟩
      · rw [if_neg hle] at h
        simp only [Option.some.injEq, Prod.mk.injEq] at h
        obtain ⟨l1, l2, hes', hrest'⟩ := ih hes
        refine ⟨e :: l1, l2, ?_, ?_⟩
        · rw [← h.1]
          simp [hes']
        · rw [← h.2, hrest']
          simp

theorem popMin_length {l : List Entry} {m : Entry} {rest : List Entry}
    (h : popMin l = some (m, rest)) : rest.length + 1 = l.length := by
  obtain ⟨l1, l2, h1, h2⟩ := popMin_decomp h
  subst h1; subst h2
  simp [Nat.add_assoc, Nat.add_comm]

theorem popMin_min {l : List Entry} {m : Entry} {rest : List Entry}
    (h : popMin l = some (m, rest)) : ∀ x ∈ l, entryLE m x := by
  induction l generalizing m rest with
  | nil => simp [popMin] at h
  | cons e es ih =>
    simp only [popMin] at h
    cases hes : popMin es with
    | none =>
      rw [hes] at h
      have hnil : es = [] := popMin_eq_none hes
      simp only [Option.some.injEq, Prod.mk.injEq] at h
      subst hnil
      intro x hx
      rw [List.mem_singleton] at hx
      subst hx
      exact h.1 ▸ entryLE_refl x
    | some p =>
      obtain ⟨m', rest'⟩ := p
      simp only [hes] at h
      by_cases hle : entryLE e m'
      · rw [if_pos hle] at h
        simp only [Option.some.injEq, Prod.mk.injEq] at h
        obtain ⟨h1, -⟩ := h
        intro x hx
        rcases List.mem_cons.mp hx with hxe | hx
        · rw [← h1, hxe]; exact entryLE_refl e
        · rw [← h1]; exact entryLE_trans hle (ih hes x hx)
      · rw [if_neg hle] at h
        simp only [Option.some.injEq, Prod.mk.injEq] at h
        obtain ⟨h1, -⟩ := h
        intro x hx
        rcases List.mem_cons.mp hx with hxe | hx
        · rw [← h1, hxe]
          rcases entryLE_total m' e with hmx | hxm
          · exact hmx
          · exact absurd hxm hle
        · rw [← h1]; exact ih hes x hx

end HeapLemmas

section MapLemmas

theorem keys_nil : keys [] = [] := rfl

theorem keys_cons (p : String × Task) (m : TMap) : keys (p :: m) = p.1 :: keys m := rfl

theorem keys_eraseKey (id : String) (m : TMap) :
    keys (eraseKey id m) = (keys m).erase id := by
  induction m with
  | nil => rfl
  | cons p rest ih =>
    obtain ⟨k, t⟩ := p
    by_cases h : k = id
    · simp [eraseKey, h, keys_cons, List.erase_cons]
    · have hne : ¬(k == id) = true := by simpa using h
      rw [eraseKey, if_neg h, keys_cons, keys_cons, List.erase_cons, if_neg hne, ih]

theorem mem_of_mem_eraseKey {id : String} {m : TMap} {p : String × Task}
    (h : p ∈ eraseKey id m) : p ∈ m := by
  induction m with
  | nil => simp [eraseKey] at h
  | cons q rest ih =>
    obtain ⟨k, t⟩ := q
    by_cases hq : k = id
    · rw [eraseKey, if_pos hq] at h
      exact List.mem_cons_of_mem (k, t) h
    · rw [eraseKey, if_neg hq] at h
      rcases List.mem_cons.mp h with rfl | h
      · exact List.mem_cons_self _ rest
      · exact List.mem_cons_of_mem (k, t) (ih h)

theorem eraseKey_split {id : String} (t : Task) (m1 m2 : TMap)
    (h : id ∉ keys m1) : eraseKey id (m1 ++ (id, t) :: m2) = m1 ++ m2 := by
  induction m1 with
  | nil => simp [eraseKey]
  | cons p rest ih =>
    obtain ⟨k, u⟩ := p
    have hne : k ≠ id := fun hc => h (by simp [keys_cons, hc])
    have hrest : id ∉ keys rest := fun hc => h (by simp [keys_cons, hc])
    rw [List.cons_append, eraseKey, if_neg hne, ih hrest]
    simp

end MapLemmas

section DecompLemmas

theorem map_eq_append_cons {α β : Type} {f : α → β} {b : β} :
    ∀ {l : List α} {s1 s2 : List β}, l.map f = s1 ++ b :: s2 →
      ∃ l1 x l2, l = l1 ++ x :: l2 ∧ f x = b ∧ l1.map f = s1 ∧ l2.map f = s2 := by
  intro l s1
  induction s1 generalizing l with
  | nil =>
    intro s2 h
    cases l with
    | nil => simp at h
    | cons x l' =>
      simp only [List.map_cons, List.nil_append, List.cons.injEq] at h
      exact ⟨[], x, l', by simp, h.1, rfl, h.2⟩
  | cons c s1' ih =>
    intro s2 h
    cases l with
    | nil => simp at h
    | cons y l' =>
      simp only [List.map_cons, List.cons_append, List.cons.injEq] at h
      obtain ⟨l1, x, l2, hdec, hfx, hm1, hm2⟩ := ih h.2
      exact ⟨y :: l1, x, l2, by simp [hdec], hfx, by simp [h.1, hm1], hm2⟩

theorem nodup_map_inj {α β : Type} {f : α → β} {l : List α}
    (hn : (l.map f).Nodup) {x y : α} (hx : x ∈ l) (hy : y ∈ l)
    (hf : f x = f y) : x = y := by
  induction l with
  | nil => simp at hx
  | cons a l' ih =>
    simp only [List.map_cons, List.nodup_cons] at hn
    rcases List.mem_cons.mp hx with rfl | hx' <;>
      rcases List.mem_cons.mp hy with rfl | hy'
    · rfl
    · exact absurd (hf ▸ List.mem_map_of_mem f hy') hn.1
    · exact absurd (hf ▸ List.mem_map_of_mem f hx') hn.1
    · exact ih hn.2 hx' hy'

theorem pairwise_of_decomp {α : Type} {R : α → α → Prop} {l l1 l2 l3 : List α}
    {x y : α} (hp : l.Pairwise R) (hdec : l = l1 ++ x :: (l2 ++ y :: l3)) :
    R x y := by
  subst hdec
  have h2 := (List.pairwise_append.mp hp).2.1
  exact (List.pairwise_cons.mp h2).1 y (by simp)

end DecompLemmas

section RebuildLemmas

theorem rebuildAux_ids (now : ℚ) (base : ℕ) (m : TMap)
    (hk : ∀ p ∈ m, p.2.image_id = p.1) :
    (rebuildAux now base m).map (fun e => e.2.2.image_id) = keys m := by
  induction m generalizing base with
  | nil => rfl
  | cons p rest ih =>
    obtain ⟨k, t⟩ := p
    have hkt : t.image_id = k := hk (k, t) (List.mem_cons_self _ _)
    simp only [rebuildAux, List.map_cons, keys_cons]
    rw [hkt, ih (base + 1) fun q hq => hk q (List.mem_cons_of_mem _ hq)]

theorem rebuildAux_cnt (now : ℚ) (base : ℕ) (m : TMap) :
    ∀ e ∈ rebuildAux now base m, base ≤ e.2.1 ∧ e.2.1 < base + m.length := by
  induction m generalizing base with
  | nil => simp [rebuildAux]
  | cons p rest ih =>
    obtain ⟨k, t⟩ := p
    intro e he
    rw [rebuildAux] at he
    rcases List.mem_cons.mp he with hxe | he
    · subst hxe
      exact ⟨le_refl _, by simp⟩
    · have := ih (base + 1) e he
      constructor <;> [omega; (simp only [List.length_cons]; omega)]

theorem rebuildAux_pairwise (now : ℚ) (base : ℕ) (m : TMap) :
    (rebuildAux now base m).Pairwise (fun a b => a.2.1 < b.2.1) := by
  induction m generalizing base with
  | nil => exact List.Pairwise.nil
  | cons p rest ih =>
    obtain ⟨k, t⟩ := p
    rw [rebuildAux]
    refine List.Pairwise.cons ?_ (ih (base + 1))
    intro e he
    exact lt_of_lt_of_le (Nat.lt_succ_self base) (rebuildAux_cnt now (base + 1) rest e he).1

theorem keyMatch_updPriority (id : String) (d : ℚ) (m : TMap)
    (hk : ∀ p ∈ m, p.2.image_id = p.1) :
    ∀ p ∈ updPriority id d m, p.2.image_id = p.1 := by
  intro p hp
  obtain ⟨q, hq, hpq⟩ := List.mem_map.mp hp
  by_cases h : q.1 = id
  · rw [if_pos h] at hpq
    rw [← hpq]
    exact hk q hq
  · rw [if_neg h] at hpq
    rw [← hpq]
    exact hk q hq

theorem keyMatch_foldl_updPriority (ids : List String) (d : ℚ) (m : TMap)
    (hk : ∀ p ∈ m, p.2.image_id = p.1) :
    ∀ p ∈ ids.foldl (fun m i => updPriority i d m) m, p.2.image_id = p.1 := by
  induction ids generalizing m with
  | nil => exact hk
  | cons i rest ih =>
    rw [List.foldl_cons]
    exact ih (updPriority i d m) (keyMatch_updPriority i d m hk)

theorem keyMatch_map_snd (m : TMap) (f : Task → Task)
    (hf : ∀ t, (f t).image_id = t.image_id)
    (hk : ∀ p ∈ m, p.2.image_id = p.1) :
    ∀ p ∈ m.map (fun q => (q.1, f q.2)), p.2.image_id = p.1 := by
  intro p hp
  obtain ⟨q, hq, rfl⟩ := List.mem_map.mp hp
  simpa [hf] using hk q hq

end RebuildLemmas

section InvPreservation

theorem inv_init (vb ib df : ℚ) : Inv (initScheduler vb ib df) :=
  ⟨List.Pairwise.nil, by simp [initScheduler], rfl, List.nodup_nil, by simp [initScheduler]⟩

theorem inv_addTask (now : ℚ) (id : String) {s : State} (h : Inv s) :
    Inv (addTask now id s) := by
  by_cases hmem : id ∈ keys s.task_map
  · rw [addTask_mem now id s hmem]; exact h
  · obtain ⟨hp, hb, hi, hn, hk⟩ := h
    have heq : addTask now id s =
        { s with
            task_map := s.task_map ++ [(id, ⟨id, 0, now⟩)]
            heap := s.heap ++ [((Task.mk id 0 now).score now, s.counter, ⟨id, 0, now⟩)]
            counter := s.counter + 1 } := by
      simp [addTask, hmem]
    rw [heq]
    refine ⟨?_, ?_, ?_, ?_, ?_⟩
    · refine List.pairwise_append.mpr ⟨hp, List.pairwise_singleton _ _, ?_⟩
      intro a ha b hb'
      rw [List.mem_singleton] at hb'
      subst hb'
      exact hb a ha
    · intro e he
      rcases List.mem_append.mp he with he | he
      · exact lt_trans (hb e he) (Nat.lt_succ_self _)
      · rw [List.mem_singleton] at he
        subst he
        exact Nat.lt_succ_self _
    · show (s.heap ++ [((Task.mk id 0 now).score now, s.counter, Task.mk id 0 now)]).map
          (fun e => e.2.2.image_id) = keys (s.task_map ++ [(id, Task.mk id 0 now)])
      rw [List.map_append, keys_append, hi]
      rfl
    · show (keys (s.task_map ++ [(id, ⟨id, 0, now⟩)])).Nodup
      rw [keys_append]
      refine List.nodup_append.mpr ⟨hn, List.nodup_singleton _, ?_⟩
      intro a ha hb'
      rw [show keys [(id, Task.mk id 0 now)] = [id] from rfl, List.mem_singleton] at hb'
      subst hb'
      exact hmem ha
    · intro p hp'
      rcases List.mem_append.mp hp' with hp' | hp'
      · exact hk p hp'
      · rw [List.mem_singleton] at hp'
        subst hp'
        rfl

theorem inv_rebuildHeap (now : ℚ) (s : State)
    (hn : (keys s.task_map).Nodup) (hk : ∀ p ∈ s.task_map, p.2.image_id = p.1) :
    Inv (rebuildHeap now s) := by
  refine ⟨rebuildAux_pairwise now s.counter s.task_map, ?_,
    rebuildAux_ids now s.counter s.task_map hk, hn, hk⟩
  intro e he
  exact (rebuildAux_cnt now s.counter s.task_map e he).2

theorem inv_bump (now : ℚ) (ids : List String) {s : State} (h : Inv s) :
    Inv (bumpToFrontBatch now ids s) := by
  obtain ⟨-, -, -, hn, hk⟩ := h
  apply inv_rebuildHeap
  · show (keys (ids.foldl (fun m i => updPriority i s.viewport_boost m) s.task_map)).Nodup
    rw [keys_foldl_updPriority]
    exact hn
  · exact keyMatch_foldl_updPriority ids s.viewport_boost s.task_map hk

theorem inv_promote (now : ℚ) (id : String) {s : State} (h : Inv s) :
    Inv (promote now id s) := by
  by_cases hmem : id ∈ keys s.task_map
  · obtain ⟨-, -, -, hn, hk⟩ := h
    rw [promote, if_pos hmem]
    apply inv_rebuildHeap
    · show (keys (updPriority id s.intent_boost s.task_map)).Nodup
      rw [keys_updPriority]
      exact hn
    · exact keyMatch_updPriority id s.intent_boost s.task_map hk
  · rw [promote, if_neg hmem]
    exact h

theorem inv_decay (now : ℚ) {s : State} (h : Inv s) : Inv (decay now s) := by
  obtain ⟨-, -, -, hn, hk⟩ := h
  apply inv_rebuildHeap
  · show (keys (s.task_map.map fun p =>
        (p.1, { p.2 with priority := p.2.priority * s.decay_factor }))).Nodup
    have hkeq := keys_map_snd s.task_map
      fun _ t => { t with priority := t.priority * s.decay_factor }
    rw [show (keys (s.task_map.map fun p =>
        (p.1, { p.2 with priority := p.2.priority * s.decay_factor }))) = keys s.task_map
      from hkeq]
    exact hn
  · exact keyMatch_map_snd s.task_map
      (fun t => { t with priority := t.priority * s.decay_factor }) (fun t => rfl) hk

end InvPreservation

section PopPreservation

theorem popLive_nil (m : TMap) : popLive [] m = none := rfl

theorem popLive_of_invHM {h : List Entry} {m : TMap} {c : ℕ} (hinv : InvHM h m c)
    (hne : h ≠ []) :
    ∃ e rest, popMin h = some (e, rest) ∧
      popLive h m = some (e.2.2, rest, eraseKey e.2.2.image_id m) := by
  cases hh : popMin h with
  | none => exact absurd (popMin_eq_none hh) hne
  | some p =>
    obtain ⟨e, rest⟩ := p
    refine ⟨e, rest, rfl, ?_⟩
    have he : e ∈ h := by
      obtain ⟨l1, l2, hdec, -⟩ := popMin_decomp hh
      rw [hdec]
      exact List.mem_append.mpr (Or.inr (List.mem_cons_self _ _))
    have hmem : e.2.2.image_id ∈ keys m := by
      rw [← hinv.idsEq]
      exact List.mem_map_of_mem _ he
    cases h with
    | nil => exact absurd rfl hne
    | cons a tl =>
      show popLiveAux (a :: tl).length (a :: tl) m = _
      rw [List.length_cons]
      simp only [popLiveAux, hh]
      rw [if_pos hmem]

theorem inv_after_pop {h : List Entry} {m : TMap} {c : ℕ} (hinv : InvHM h m c)
    {e : Entry} {rest : List Entry} (hpm : popMin h = some (e, rest)) :
    InvHM rest (eraseKey e.2.2.image_id m) c := by
  obtain ⟨l1, l2, hdec, hrest⟩ := popMin_decomp hpm
  have hids : keys m =
      (l1.map fun x => x.2.2.image_id) ++
        e.2.2.image_id :: (l2.map fun x => x.2.2.image_id) := by
    rw [← hinv.idsEq, hdec]
    simp
  have hnotin : e.2.2.image_id ∉ l1.map fun x => x.2.2.image_id := by
    have hnd := hinv.nodupKeys
    rw [hids] at hnd
    exact fun hc => (List.nodup_append.mp hnd).2.2 hc (List.mem_cons_self _ _)
  have hsub : rest.Sublist h := by
    rw [hdec, hrest]
    exact ((List.Sublist.refl l2).cons e).append_left l1
  refine ⟨List.Pairwise.sublist hsub hinv.sortedCnt, ?_, ?_, ?_, ?_⟩
  · intro x hx
    exact hinv.cntBound x (hsub.mem hx)
  · rw [hrest, keys_eraseKey, hids, List.erase_append_right _ hnotin,
      List.erase_cons_head, List.map_append]
  · rw [keys_eraseKey]
    exact hinv.nodupKeys.erase _
  · intro p hp
    exact hinv.keyMatch p (mem_of_mem_eraseKey hp)

theorem popLive_none_of_invHM {h : List Entry} {m : TMap} {c : ℕ}
    (hinv : InvHM h m c) (hpl : popLive h m = none) : h = [] := by
  by_contra hne
  obtain ⟨e, rest, -, hsome⟩ := popLive_of_invHM hinv hne
  rw [hsome] at hpl
  exact absurd hpl (by simp)

theorem invHM_of_popLive_some {h : List Entry} {m : TMap} {c : ℕ}
    {t : Task} {h' : List Entry} {m' : TMap} (hinv : InvHM h m c)
    (hpl : popLive h m = some (t, h', m')) :
    InvHM h' m' c ∧ t.image_id ∈ keys m ∧ m' = eraseKey t.image_id m ∧
      ∃ e, popMin h = some (e, h') ∧ e.2.2 = t := by
  have hne : h ≠ [] := by
    intro hnil
    subst hnil
    rw [popLive_nil] at hpl
    exact absurd hpl (by simp)
  obtain ⟨e, rest, hpm, hsome⟩ := popLive_of_invHM hinv hne
  rw [hsome] at hpl
  simp only [Option.some.injEq, Prod.mk.injEq] at hpl
  obtain ⟨h1, h2, h3⟩ := hpl
  subst h1
  subst h2
  subst h3
  have hmem : e.2.2.image_id ∈ keys m := by
    obtain ⟨l1, l2, hdec, -⟩ := popMin_decomp hpm
    rw [← hinv.idsEq, hdec]
    exact List.mem_map_of_mem _ (List.mem_append.mpr (Or.inr (List.mem_cons_self _ _)))
  exact ⟨inv_after_pop hinv hpm, hmem, rfl, e, hpm, rfl⟩

theorem invHM_goBatch (n : ℕ) : ∀ {h : List Entry} {m : TMap} {c : ℕ},
    InvHM h m c → InvHM (goBatch n h m).2.1 (goBatch n h m).2.2 c := by
  induction n with
  | zero => intro h m c hinv; exact hinv
  | succ n ih =>
    intro h m c hinv
    cases hpl : popLive h m with
    | none =>
      have hnil : h = [] := popLive_none_of_invHM hinv hpl
      have heq : goBatch (n + 1) h m = ([], [], m) := by
        simp only [goBatch, hpl]
      rw [heq]
      subst hnil
      exact hinv
    | some p =>
      obtain ⟨t, h1, m1⟩ := p
      have heq : goBatch (n + 1) h m = (t :: (goBatch n h1 m1).1, (goBatch n h1 m1).2) := by
        simp only [goBatch, hpl]
      rw [heq]
      exact ih (invHM_of_popLive_some hinv hpl).1

theorem reachable_inv {s : State} (hr : Reachable s) : Inv s := by
  induction hr with
  | init vb ib df => exact inv_init vb ib df
  | addStep now id hr ih => exact inv_addTask now id ih
  | bumpStep now ids hr ih => exact inv_bump now ids ih
  | promoteStep now id hr ih => exact inv_promote now id ih
  | decayStep now hr ih => exact inv_decay now ih
  | setVBStep v hr ih => exact ih
  | setIBStep v hr ih => exact ih
  | setDFStep v hr ih => exact ih
  | nextStep hr ih =>
    rename_i s'
    cases hpl : popLive s'.heap s'.task_map with
    | none =>
      have hnil : s'.heap = [] := popLive_none_of_invHM ih hpl
      have heq : (getNextTask s').2 = { s' with heap := [] } := by
        simp only [getNextTask, hpl]
      rw [heq, show ({ s' with heap := [] } : State) = s' from by rw [← hnil]]
      exact ih
    | some p =>
      obtain ⟨t, h', m'⟩ := p
      have heq : (getNextTask s').2 = { s' with heap := h', task_map := m' } := by
        simp only [getNextTask, hpl]
      rw [heq]
      exact (invHM_of_popLive_some ih hpl).1
  | batchStep n hr ih =>
    rename_i s'
    have heq : (getNextBatch n s').2 =
        { s' with
            heap := (goBatch n s'.heap s'.task_map).2.1
            task_map := (goBatch n s'.heap s'.task_map).2.2 } := rfl
    rw [heq]
    exact invHM_goBatch n ih

end PopPreservation

theorem goBatch_spec (n : ℕ) : ∀ {h : List Entry} {m : TMap} {c : ℕ}, InvHM h m c →
    (goBatch n h m).1.length ≤ n ∧
    (∀ t ∈ (goBatch n h m).1, t.image_id ∈ keys m) ∧
    ((goBatch n h m).1.map Task.image_id).Nodup ∧
    (∀ t ∈ (goBatch n h m).1, t.image_id ∉ keys (goBatch n h m).2.2) ∧
    keys (goBatch n h m).2.2 ⊆ keys m := by
  induction n with
  | zero =>
    intro h m c hinv
    exact ⟨by simp [goBatch], by simp [goBatch], by simp [goBatch],
      by simp [goBatch], fun a ha => ha⟩
  | succ n ih =>
    intro h m c hinv
    cases hpl : popLive h m with
    | none =>
      have heq : goBatch (n + 1) h m = ([], [], m) := by
        simp only [goBatch, hpl]
      rw [heq]
      exact ⟨by simp, by simp, by simp, by simp, fun a ha => ha⟩
    | some p =>
      obtain ⟨t, h1, m1⟩ := p
      obtain ⟨hinv1, hmem, hm1, -⟩ := invHM_of_popLive_some hinv hpl
      have heq : goBatch (n + 1) h m =
          (t :: (goBatch n h1 m1).1, (goBatch n h1 m1).2) := by
        simp only [goBatch, hpl]
      obtain ⟨ihl, ihmem, ihnd, ihrem, ihsub⟩ := ih hinv1
      have hsub1 : keys m1 ⊆ keys m := by
        rw [hm1, keys_eraseKey]
        exact fun a ha => List.erase_subset _ _ ha
      have htid : t.image_id ∉ keys m1 := by
        rw [hm1, keys_eraseKey]
        exact hinv.nodupKeys.not_mem_erase
      rw [heq]
      refine ⟨?_, ?_, ?_, ?_, ?_⟩
      · simpa using Nat.succ_le_succ ihl
      · intro u hu
        rcases List.mem_cons.mp hu with hue | hu
        · rw [hue]; exact hmem
        · exact hsub1 (ihmem u hu)
      · rw [List.map_cons]
        refine List.nodup_cons.mpr ⟨?_, ihnd⟩
        intro hc
        obtain ⟨u, hu, hue⟩ := List.mem_map.mp hc
        exact htid (hue ▸ ihmem u hu)
      · intro u hu
        rcases List.mem_cons.mp hu with hue | hu
        · rw [hue]; intro hc; exact htid (ihsub hc)
        · exact ihrem u hu
      · exact fun a ha => hsub1 (ihsub ha)

/-- Claim C2: for every reachable scheduler state and every `n`,
`next_batch(n)` returns at most `n` tasks, each returned task's id was
outstanding (the membership loop test guarantees it at the moment of
return, hence it is among the initial outstanding ids), the returned ids
are pairwise distinct, and each returned id has been removed from the
membership map afterwards. -/
theorem next_batch_bounded_fresh_distinct (s : State) (n : ℕ) (hr : Reachable s) :
    (getNextBatch n s).1.length ≤ n ∧
    (∀ t ∈ (getNextBatch n s).1, t.image_id ∈ keys s.task_map) ∧
    ((getNextBatch n s).1.map Task.image_id).Nodup ∧
    (∀ t ∈ (getNextBatch n s).1, t.image_id ∉ keys (getNextBatch n s).2.task_map) := by
  obtain ⟨h1, h2, h3, h4, -⟩ := goBatch_spec n (reachable_inv hr)
  exact ⟨h1, h2, h3, h4⟩

section FifoLemmas

theorem entry_unique_of_invHM {h : List Entry} {m : TMap} {c : ℕ}
    (hinv : InvHM h m c) {x y : Entry} (hx : x ∈ h) (hy : y ∈ h)
    (hid : x.2.2.image_id = y.2.2.image_id) : x = y := by
  have hnd : (h.map fun e => e.2.2.image_id).Nodup := by
    rw [hinv.idsEq]
    exact hinv.nodupKeys
  exact nodup_map_inj hnd hx hy hid

theorem counter_lt_of_before {h : List Entry} {m : TMap} {c : ℕ}
    (hinv : InvHM h m c) {a b : String} {ea eb : Entry}
    (hea : ea ∈ h) (heb : eb ∈ h)
    (hia : ea.2.2.image_id = a) (hib : eb.2.2.image_id = b)
    (hkb : keysBefore a b (keys m)) : ea.2.1 < eb.2.1 := by
  obtain ⟨p, q, r, hkeys⟩ := hkb
  have hmap : h.map (fun e => e.2.2.image_id) = p ++ a :: (q ++ b :: r) := by
    rw [hinv.idsEq, hkeys]
  obtain ⟨l1, x, l2, hdec1, hfx, -, hm2⟩ := map_eq_append_cons hmap
  obtain ⟨l3, y, l4, hdec2, hfy, -, -⟩ := map_eq_append_cons hm2
  have hx_mem : x ∈ h := by
    rw [hdec1]
    exact List.mem_append.mpr (Or.inr (List.mem_cons_self _ _))
  have hy_mem : y ∈ h := by
    rw [hdec1, hdec2]
    refine List.mem_append.mpr (Or.inr (List.mem_cons_of_mem _ ?_))
    exact List.mem_append.mpr (Or.inr (List.mem_cons_self _ _))
  have hax : ea = x := entry_unique_of_invHM hinv hea hx_mem (by rw [hia, hfx])
  have hby : eb = y := entry_unique_of_invHM hinv heb hy_mem (by rw [hib, hfy])
  have hdecomp : h = l1 ++ x :: (l3 ++ y :: l4) := by rw [hdec1, hdec2]
  rw [hax, hby]
  exact pairwise_of_decomp (R := fun u v : Entry => u.2.1 < v.2.1)
    hinv.sortedCnt hdecomp

theorem popLive_not_later {h : List Entry} {m : TMap} {c : ℕ}
    (hinv : InvHM h m c) {a b : String} {ea eb : Entry}
    (hea : ea ∈ h) (heb : eb ∈ h)
    (hia : ea.2.2.image_id = a) (hib : eb.2.2.image_id = b)
    (hsc : ea.1 = eb.1) (hkb : keysBefore a b (keys m)) :
    ∀ {t : Task} {h' : List Entry} {m' : TMap},
      popLive h m = some (t, h', m') → t.image_id ≠ b := by
  intro t h' m' hpl hct
  obtain ⟨-, -, -, e, hpm, het⟩ := invHM_of_popLive_some hinv hpl
  have he_mem : e ∈ h := by
    obtain ⟨l1, l2, hdec, -⟩ := popMin_decomp hpm
    rw [hdec]
    exact List.mem_append.mpr (Or.inr (List.mem_cons_self _ _))
  have heid : e.2.2.image_id = b := by rw [het, hct]
  have heqb : e = eb := entry_unique_of_invHM hinv he_mem heb (by rw [heid, hib])
  have hmin := popMin_min hpm ea hea
  rw [heqb] at hmin
  have hcnt := counter_lt_of_before hinv hea heb hia hib hkb
  rcases hmin with hlt | ⟨-, hle⟩
  · exact absurd (hsc ▸ hlt) (lt_irrefl _)
  · omega

theorem mem_rest_of_ne {h : List Entry} {e : Entry} {rest : List Entry}
    (hpm : popMin h = some (e, rest)) {x : Entry} (hx : x ∈ h) (hne : x ≠ e) :
    x ∈ rest := by
  obtain ⟨l1, l2, hdec, hrest⟩ := popMin_decomp hpm
  rw [hdec] at hx
  rw [hrest]
  rcases List.mem_append.mp hx with h1 | h1
  · exact List.mem_append.mpr (Or.inl h1)
  · rcases List.mem_cons.mp h1 with h2 | h2
    · exact absurd h2 hne
    · exact List.mem_append.mpr (Or.inr h2)

theorem keysBefore_erase {a b c : String} {l : List String}
    (hb : keysBefore a b l) (hca : c ≠ a) (hcb : c ≠ b) :
    keysBefore a b (l.erase c) := by
  obtain ⟨p, q, r, rfl⟩ := hb
  by_cases hp : c ∈ p
  · rw [List.erase_append_left _ hp]
    exact ⟨p.erase c, q, r, rfl⟩
  · rw [List.erase_append_right _ hp]
    have h1 : ¬(a == c) = true := by
      simp only [beq_iff_eq]
      exact fun hc => hca hc.symm
    rw [List.erase_cons, if_neg h1]
    by_cases hq : c ∈ q
    · rw [List.erase_append_left _ hq]
      exact ⟨p, q.erase c, r, rfl⟩
    · rw [List.erase_append_right _ hq]
      have h2 : ¬(b == c) = true := by
        simp only [beq_iff_eq]
        exact fun hc => hcb hc.symm
      rw [List.erase_cons, if_neg h2]
      exact ⟨p, q, r.erase c, rfl⟩

theorem goBatch_fifo (n : ℕ) : ∀ {h : List Entry} {m : TMap} {c : ℕ},
    InvHM h m c → ∀ {a b : String} {ea eb : Entry},
    ea ∈ h → eb ∈ h → ea.2.2.image_id = a → eb.2.2.image_id = b →
    ea.1 = eb.1 → keysBefore a b (keys m) →
    b ∈ (goBatch n h m).1.map Task.image_id →
    ∃ o1 o2, (goBatch n h m).1.map Task.image_id = o1 ++ b :: o2 ∧ a ∈ o1 := by
  induction n with
  | zero =>
    intro h m c hinv a b ea eb hea heb hia hib hsc hkb hbm
    simp [goBatch] at hbm
  | succ n ih =>
    intro h m c hinv a b ea eb hea heb hia hib hsc hkb hbm
    cases hpl : popLive h m with
    | none =>
      rw [show goBatch (n + 1) h m = ([], [], m) from by simp only [goBatch, hpl]] at hbm
      simp at hbm
    | some p =>
      obtain ⟨t, h1, m1⟩ := p
      have heq : goBatch (n + 1) h m =
          (t :: (goBatch n h1 m1).1, (goBatch n h1 m1).2) := by
        simp only [goBatch, hpl]
      rw [heq] at hbm ⊢
      rw [List.map_cons] at hbm ⊢
      have htb : t.image_id ≠ b := popLive_not_later hinv hea heb hia hib hsc hkb hpl
      rcases List.mem_cons.mp hbm with hb1 | hb2
      · exact absurd hb1.symm htb
      · obtain ⟨hinv1, -, hm1eq, e, hpm, het⟩ := invHM_of_popLive_some hinv hpl
        by_cases hta : t.image_id = a
        · obtain ⟨r1, r2, hdecr⟩ := List.append_of_mem hb2
          refine ⟨t.image_id :: r1, r2, ?_, ?_⟩
          · rw [hdecr]
            simp
          · rw [hta]
            exact List.mem_cons_self _ _
        · have hne_a : ea ≠ e := fun hc => hta (by rw [← het, ← hc, hia])
          have hne_b : eb ≠ e := fun hc => htb (by rw [← het, ← hc, hib])
          have hea1 : ea ∈ h1 := mem_rest_of_ne hpm hea hne_a
          have heb1 : eb ∈ h1 := mem_rest_of_ne hpm heb hne_b
          have hkb1 : keysBefore a b (keys m1) := by
            rw [hm1eq, keys_eraseKey]
            exact keysBefore_erase hkb hta htb
          obtain ⟨o1, o2, hdec, hao⟩ := ih hinv1 hea1 heb1 hia hib hsc hkb1 hb2
          refine ⟨t.image_id :: o1, o2, ?_, List.mem_cons_of_mem _ hao⟩
          rw [hdec]
          simp

end FifoLemmas

/-- Claim C5: FIFO tie-break.  In any reachable scheduler state holding two
outstanding tasks with equal priority and equal stored heap score (equal
priority and equal age give equal score), the one submitted earlier —
i.e. whose id occurs earlier in the membership map — wins: `next()` never
returns the later one while the earlier one is outstanding, and in any
`next_batch(n)` result containing the later id, the earlier id occurs
strictly before it.  The mechanism is the monotone sequence counter
attached to every heap entry on push and on rebuild. -/
theorem fifo_tie_break (s : State) (hr : Reachable s) (a b : String)
    (ea eb : Entry) (hea : ea ∈ s.heap) (heb : eb ∈ s.heap)
    (hia : ea.2.2.image_id = a) (hib : eb.2.2.image_id = b)
    (hprio : ea.2.2.priority = eb.2.2.priority) (hsc : ea.1 = eb.1)
    (hkb : keysBefore a b (keys s.task_map)) :
    (getNextTask s).1.map Task.image_id ≠ some b ∧
    (∀ n, b ∈ (getNextBatch n s).1.map Task.image_id →
      ∃ o1 o2, (getNextBatch n s).1.map Task.image_id = o1 ++ b :: o2 ∧ a ∈ o1) := by
  have hinv := reachable_inv hr
  constructor
  · intro hc
    cases hpl : popLive s.heap s.task_map with
    | none =>
      rw [show (getNextTask s).1 = none from by simp only [getNextTask, hpl]] at hc
      exact absurd hc (by simp)
    | some p =>
      obtain ⟨t, h', m'⟩ := p
      rw [show (getNextTask s).1 = some t from by simp only [getNextTask, hpl]] at hc
      simp only [Option.map_some', Option.some.injEq] at hc
      exact popLive_not_later hinv hea heb hia hib hsc hkb hpl hc
  · intro n hbm
    exact goBatch_fifo n hinv hea heb hia hib hsc hkb hbm

/-- Claim C5 witness: submit `"A"` then `"B"` at the same instant (equal
priority 0, equal age, equal score); `next()` does not return `"B"`. -/
theorem fifo_tie_break_witness :
    (getNextTask (addTask 0 "B" (addTask 0 "A" (initScheduler 10 100 (19/20))))).1.map
      Task.image_id ≠ some "B" :=
  (fifo_tie_break (addTask 0 "B" (addTask 0 "A" (initScheduler 10 100 (19/20))))
    (Reachable.addStep 0 "B" (Reachable.addStep 0 "A" (Reachable.init 10 100 (19/20))))
    "A" "B"
    ((Task.mk "A" 0 0).score 0, 0, Task.mk "A" 0 0)
    ((Task.mk "B" 0 0).score 0, 1, Task.mk "B" 0 0)
    (List.mem_cons_self _ _)
    (List.mem_cons_of_mem _ (List.mem_cons_self _ _))
    rfl rfl rfl rfl ⟨[], [], [], rfl⟩).1

/-- Claim C6: promotion wins over submission order.  Submit `"A"` at time
`tA`, then `"B"` at time `tB`, then `promote("B")` at time `tP` with the
default `intentBoost = 100`; provided the age advantage of `"A"` times the
age weight `0.1` is less than the boost (`(tB - tA) * 0.1 < 100`), the
next `next()` call returns `"B"` despite its later submission. -/
theorem promote_wins (tA tB tP : ℚ) (hgap : (tB - tA) * (1/10) < 100) :
    (getNextTask (promote tP "B" (addTask tB "B" (addTask tA "A"
      (initScheduler 10 100 (19/20)))))).1.map Task.image_id = some "B" := by
  have hs3 : promote tP "B" (addTask tB "B" (addTask tA "A"
      (initScheduler 10 100 (19/20)))) =
      ⟨10, 100, 19/20,
       [("A", Task.mk "A" 0 tA), ("B", Task.mk "B" (0 + 100) tB)],
       [((Task.mk "A" 0 tA).score tP, 2, Task.mk "A" 0 tA),
        ((Task.mk "B" (0 + 100) tB).score tP, 3, Task.mk "B" (0 + 100) tB)],
       4⟩ := rfl
  have hlt : (Task.mk "B" (0 + 100) tB).score tP < (Task.mk "A" 0 tA).score tP := by
    simp only [Task.score]
    linarith
  have hnot : ¬ entryLE
      ((Task.mk "A" 0 tA).score tP, 2, Task.mk "A" 0 tA)
      ((Task.mk "B" (0 + 100) tB).score tP, 3, Task.mk "B" (0 + 100) tB) := by
    intro hle
    rcases hle with hl | ⟨he, -⟩
    · exact absurd (lt_trans hl hlt) (lt_irrefl _)
    · have he2 : (Task.mk "A" 0 tA).score tP = (Task.mk "B" (0 + 100) tB).score tP := he
      rw [he2] at hlt
      exact lt_irrefl _ hlt
  have hpm : popMin
      [((Task.mk "A" 0 tA).score tP, 2, Task.mk "A" 0 tA),
       ((Task.mk "B" (0 + 100) tB).score tP, 3, Task.mk "B" (0 + 100) tB)] =
      some (((Task.mk "B" (0 + 100) tB).score tP, 3, Task.mk "B" (0 + 100) tB),
        [((Task.mk "A" 0 tA).score tP, 2, Task.mk "A" 0 tA)]) := by
    simp only [popMin]
    rw [if_neg hnot]
  have hpl : popLive
      [((Task.mk "A" 0 tA).score tP, 2, Task.mk "A" 0 tA),
       ((Task.mk "B" (0 + 100) tB).score tP, 3, Task.mk "B" (0 + 100) tB)]
      [("A", Task.mk "A" 0 tA), ("B", Task.mk "B" (0 + 100) tB)] =
      some (Task.mk "B" (0 + 100) tB,
        [((Task.mk "A" 0 tA).score tP, 2, Task.mk "A" 0 tA)],
        eraseKey "B" [("A", Task.mk "A" 0 tA), ("B", Task.mk "B" (0 + 100) tB)]) := by
    show popLiveAux 2 _ _ = _
    simp only [popLiveAux, hpm]
    rw [if_pos (show
      ("B" : String) ∈ keys [("A", Task.mk "A" 0 tA), ("B", Task.mk "B" (0 + 100) tB)]
      from List.mem_cons_of_mem _ (List.mem_cons_self _ _))]
  rw [hs3]
  simp only [getNextTask, hpl, Option.map_some']

/-- Claim C6 witness: with all three clock readings at 0 (so the age gap
is 0 < 100), `next()` after `promote("B")` returns `"B"`. -/
theorem promote_wins_witness :
    (getNextTask (promote 0 "B" (addTask 0 "B" (addTask 0 "A"
      (initScheduler 10 100 (19/20)))))).1.map Task.image_id = some "B" :=
  promote_wins 0 0 0 (by norm_num)

/-- Claim C2 witness: a batch of size 1 drawn from a scheduler holding two
submitted ids returns at most one task. -/
theorem next_batch_witness :
    (getNextBatch 1 (addTask 1 "B" (addTask 0 "A" (initScheduler 10 100 (19/20))))).1.length ≤ 1 :=
  (next_batch_bounded_fresh_distinct
      (addTask 1 "B" (addTask 0 "A" (initScheduler 10 100 (19/20)))) 1
      (Reachable.addStep 1 "B" (Reachable.addStep 0 "A"
        (Reachable.init 10 100 (19/20))))).1
